import Mathlib

/-!
Shallow embedding of the event-stream core of `icinga2api/client.py`:
the frame reassembler `Base.fetech_from_stream` (lines 314-325), the
response handling of `Base._request` (lines 265-311), and the event
subscriber `Events.subscribe` (lines 979-1026).

Strings are modelled as `List Char` (Python `str`, indexed by code point).
The record delimiter is modelled as a single character: the source's
`split_str` parameter defaults to `'\n'` and the wire protocol is
newline-delimited, and Python `str.split` with a one-character separator
is exactly `splitOnChar` below.
-/

namespace Icinga2

/-- Python `buf.split(sep)` for a one-character separator `d`:
`"".split(d) = [""]`, and each occurrence of `d` starts a new piece. -/
def splitOnChar (d : Char) : List Char → List (List Char)
  | [] => [[]]
  | c :: cs =>
    if c = d then [] :: splitOnChar d cs
    else
      match splitOnChar d cs with
      | [] => [[c]]
      | t :: ts => (c :: t) :: ts

theorem splitOnChar_ne_nil (d : Char) (s : List Char) : splitOnChar d s ≠ [] := by
  induction s with
  | nil => simp [splitOnChar]
  | cons c cs ih =>
    simp only [splitOnChar]
    split
    · simp
    · split
      · simp
      · simp

theorem length_splitOnChar (d : Char) (s : List Char) :
    (splitOnChar d s).length = s.count d + 1 := by
  induction s with
  | nil => simp [splitOnChar]
  | cons c cs ih =>
    by_cases h : c = d
    · simp only [splitOnChar, if_pos h, List.length_cons, ih, List.count_cons]
      simp [h]
    · simp only [splitOnChar, if_neg h]
      cases hsp : splitOnChar d cs with
      | nil => exact absurd hsp (splitOnChar_ne_nil d cs)
      | cons t ts =>
        rw [hsp] at ih
        simp only [List.length_cons] at ih ⊢
        simp [List.count_cons, h, ih]

theorem splitOnChar_piece_not_mem (d : Char) (s : List Char) :
    ∀ t ∈ splitOnChar d s, d ∉ t := by
  induction s with
  | nil =>
    intro t ht
    simp [splitOnChar] at ht
    simp [ht]
  | cons c cs ih =>
    intro t ht
    by_cases h : c = d
    · rw [splitOnChar, if_pos h] at ht
      rcases List.mem_cons.mp ht with rfl | ht
      · simp
      · exact ih t ht
    · rw [splitOnChar, if_neg h] at ht
      cases hsp : splitOnChar d cs with
      | nil => exact absurd hsp (splitOnChar_ne_nil d cs)
      | cons u us =>
        rw [hsp] at ht
        rcases List.mem_cons.mp ht with rfl | ht
        · intro hd
          rcases List.mem_cons.mp hd with rfl | hd
          · exact h rfl
          · exact ih u (hsp ▸ List.mem_cons_self u us) hd
        · exact ih t (hsp ▸ List.mem_cons.mpr (Or.inr ht))

theorem getLastD_eq_of_ne_nil {α : Type} (l : List α) (h : l ≠ []) (a b : α) :
    l.getLastD a = l.getLastD b := by
  cases l with
  | nil => exact absurd rfl h
  | cons x xs => simp only [List.getLastD_cons]

theorem dropLast_append_getLastD {α : Type} :
    ∀ (l : List α), l ≠ [] → ∀ a, l.dropLast ++ [l.getLastD a] = l
  | [_], _, _ => rfl
  | x :: y :: t, _, a => by
    rw [List.dropLast_cons₂, List.getLastD_cons, List.cons_append,
      dropLast_append_getLastD (y :: t) (by simp) x]

theorem splitOnChar_cons_of_eq (d c : Char) (cs : List Char) (h : c = d) :
    splitOnChar d (c :: cs) = [] :: splitOnChar d cs := by
  rw [splitOnChar, if_pos h]

theorem splitOnChar_cons_of_ne (d c : Char) (cs : List Char) (h : ¬c = d)
    (t : List Char) (ts : List (List Char)) (hsp : splitOnChar d cs = t :: ts) :
    splitOnChar d (c :: cs) = (c :: t) :: ts := by
  rw [splitOnChar, if_neg h, hsp]

/-- Splitting a concatenation: the pieces of `x` except the last, then the
split of (last piece of `x` glued onto `y`). -/
theorem splitOnChar_append (d : Char) (x y : List Char) :
    splitOnChar d (x ++ y) =
      (splitOnChar d x).dropLast ++ splitOnChar d ((splitOnChar d x).getLastD [] ++ y) := by
  induction x with
  | nil => simp [splitOnChar]
  | cons c cs ih =>
    rw [List.cons_append]
    by_cases h : c = d
    · rw [splitOnChar_cons_of_eq d c (cs ++ y) h, splitOnChar_cons_of_eq d c cs h, ih]
      cases hsp : splitOnChar d cs with
      | nil => exact absurd hsp (splitOnChar_ne_nil d cs)
      | cons t ts =>
        rw [List.dropLast_cons₂, List.cons_append]
        simp only [List.getLastD_cons]
    · cases hsp : splitOnChar d cs with
      | nil => exact absurd hsp (splitOnChar_ne_nil d cs)
      | cons t ts =>
        rw [splitOnChar_cons_of_ne d c cs h t ts hsp]
        cases ts with
        | nil =>
          have hcsy : splitOnChar d (cs ++ y) = splitOnChar d (t ++ y) := by
            rw [ih, hsp]; rfl
          cases hty : splitOnChar d (t ++ y) with
          | nil => exact absurd hty (splitOnChar_ne_nil d (t ++ y))
          | cons u us =>
            rw [splitOnChar_cons_of_ne d c (cs ++ y) h u us (hcsy.trans hty),
              List.dropLast_single, List.nil_append]
            show (c :: u) :: us = splitOnChar d ((c :: t) ++ y)
            rw [List.cons_append, splitOnChar_cons_of_ne d c (t ++ y) h u us hty]
        | cons t2 ts2 =>
          have hcsy : splitOnChar d (cs ++ y) =
              t :: ((t2 :: ts2).dropLast ++ splitOnChar d ((t2 :: ts2).getLastD t ++ y)) := by
            rw [ih, hsp, List.dropLast_cons₂, List.getLastD_cons, List.cons_append]
          rw [splitOnChar_cons_of_ne d c (cs ++ y) h _ _ hcsy,
            List.dropLast_cons₂, List.cons_append]
          simp only [List.getLastD_cons]

/-- Reinserting the delimiter after every piece but the last reconstructs
the split string. -/
theorem join_splitOnChar (d : Char) (s : List Char) :
    ((splitOnChar d s).dropLast.map (fun r => r ++ [d])).flatten
      ++ (splitOnChar d s).getLastD [] = s := by
  induction s with
  | nil => simp [splitOnChar]
  | cons c cs ih =>
    by_cases h : c = d
    · rw [splitOnChar_cons_of_eq d c cs h]
      cases hsp : splitOnChar d cs with
      | nil => exact absurd hsp (splitOnChar_ne_nil d cs)
      | cons t ts =>
        rw [hsp] at ih
        rw [List.dropLast_cons₂, List.map_cons, List.flatten_cons]
        simp only [List.getLastD_cons] at ih ⊢
        simp only [List.nil_append, List.append_assoc, List.singleton_append]
        rw [h]
        exact congrArg (List.cons d) ih
    · cases hsp : splitOnChar d cs with
      | nil => exact absurd hsp (splitOnChar_ne_nil d cs)
      | cons t ts =>
        rw [hsp] at ih
        rw [splitOnChar_cons_of_ne d c cs h t ts hsp]
        cases ts with
        | nil =>
          simp only [List.dropLast_single, List.map_nil, List.flatten_nil,
            List.nil_append, List.getLastD_cons, List.getLastD_nil] at ih ⊢
          rw [ih]
        | cons t2 ts2 =>
          rw [List.dropLast_cons₂, List.map_cons, List.flatten_cons] at ih ⊢
          simp only [List.getLastD_cons] at ih ⊢
          rw [List.cons_append, List.cons_append, List.cons_append, ih]

/-- A delimiter-free string splits into a single piece. -/
theorem splitOnChar_of_not_mem (d : Char) (s : List Char) (h : d ∉ s) :
    splitOnChar d s = [s] := by
  induction s with
  | nil => rfl
  | cons c cs ih =>
    have hc : ¬c = d := fun hcd => h (hcd ▸ List.mem_cons_self c cs)
    have hcs : d ∉ cs := fun hm => h (List.mem_cons.mpr (Or.inr hm))
    rw [splitOnChar_cons_of_ne d c cs hc cs [] (ih hcs)]

/-- Value of `self.stream_cache` set in `Base.__init__` (client.py line 238):
the carry-over buffer starts empty when the client object is constructed. -/
def init_stream_cache : List Char := []

/-- One iteration of the loop body of `Base.fetech_from_stream`
(client.py lines 320-325): append the chunk to `stream_cache`, split on the
delimiter; if the split has at least 2 pieces, keep the last piece as the
new `stream_cache` and yield the others, else yield nothing and keep the
whole buffer. Returns (records yielded, new stream_cache). -/
def feed (d : Char) (cache chunk : List Char) : List (List Char) × List Char :=
  let lines := splitOnChar d (cache ++ chunk)
  if 2 ≤ lines.length then (lines.dropLast, lines.getLastD [])
  else ([], cache ++ chunk)

/-- `Base.fetech_from_stream` (client.py lines 314-325) run over a finite
list of chunks (the stream ending after the last chunk): returns the list
of yielded batches (`lines[:-1]` per qualifying chunk, in order) and the
final `stream_cache`.  The residual buffer is returned, never yielded:
when the stream ends the generator just stops. -/
def fetech_from_stream (d : Char) : List Char → List (List Char) → List (List (List Char)) × List Char
  | cache, [] => ([], cache)
  | cache, chunk :: rest =>
    let step := feed d cache chunk
    let restRun := fetech_from_stream d step.2 rest
    (if step.1.isEmpty then restRun.1 else step.1 :: restRun.1, restRun.2)

/-- A feed step accounts for every piece of the split buffer: the yielded
records followed by the new carry-over are exactly the split. -/
theorem feed_spec (d : Char) (cache chunk : List Char) :
    (feed d cache chunk).1 ++ [(feed d cache chunk).2] = splitOnChar d (cache ++ chunk) := by
  unfold feed
  by_cases h : 2 ≤ (splitOnChar d (cache ++ chunk)).length
  · simp only [if_pos h]
    exact dropLast_append_getLastD (splitOnChar d (cache ++ chunk))
      (splitOnChar_ne_nil d (cache ++ chunk)) []
  · simp only [if_neg h, List.nil_append]
    have h1 : (splitOnChar d (cache ++ chunk)).length = 1 := by
      have := length_splitOnChar d (cache ++ chunk)
      omega
    cases hsp : splitOnChar d (cache ++ chunk) with
    | nil => exact absurd hsp (splitOnChar_ne_nil d (cache ++ chunk))
    | cons t ts =>
      rw [hsp] at h1
      have hts : ts = [] := List.length_eq_zero.mp (by simpa using h1)
      subst hts
      have hj := join_splitOnChar d (cache ++ chunk)
      rw [hsp] at hj
      simp only [List.dropLast_single, List.map_nil, List.flatten_nil, List.nil_append,
        List.getLastD_cons, List.getLastD_nil] at hj
      rw [hj]

/-- The carry-over left by a feed step never contains the delimiter. -/
theorem feed_cache_not_mem (d : Char) (cache chunk : List Char) :
    d ∉ (feed d cache chunk).2 := by
  have hpieces := splitOnChar_piece_not_mem d (cache ++ chunk)
  have hspec := feed_spec d cache chunk
  exact hpieces _ (hspec ▸ List.mem_append_right _ (List.mem_singleton_self _))

/-- A buffer containing no delimiter yields no record. -/
theorem feed_no_delim (d : Char) (cache chunk : List Char)
    (h : (cache ++ chunk).count d = 0) :
    (feed d cache chunk).1 = [] ∧ (feed d cache chunk).2 = cache ++ chunk := by
  have hlen : (splitOnChar d (cache ++ chunk)).length = 1 := by
    rw [length_splitOnChar, h]
  unfold feed
  rw [if_neg (by omega)]
  exact ⟨rfl, rfl⟩

theorem getLastD_append_singleton {α : Type} (l : List α) (x a : α) :
    (l ++ [x]).getLastD a = x := by
  rw [getLastD_eq_of_ne_nil (l ++ [x]) (by simp) a x]
  exact List.getLastD_concat x x l

/-- Running the reassembler accounts for every byte: starting from a
delimiter-free carry-over, the concatenation of all yielded batches
followed by the final carry-over is exactly the split of
(initial carry-over ++ all fed bytes). -/
theorem fetech_spec (d : Char) (chunks : List (List Char)) :
    ∀ cache : List Char, d ∉ cache →
      (fetech_from_stream d cache chunks).1.flatten ++ [(fetech_from_stream d cache chunks).2]
        = splitOnChar d (cache ++ chunks.flatten) := by
  induction chunks with
  | nil =>
    intro cache hc
    simp only [fetech_from_stream, List.flatten_nil, List.append_nil, List.nil_append]
    exact (splitOnChar_of_not_mem d cache hc).symm
  | cons chunk rest ih =>
    intro cache hc
    have hstep := feed_spec d cache chunk
    have hrest := ih (feed d cache chunk).2 (feed_cache_not_mem d cache chunk)
    simp only [fetech_from_stream]
    rw [List.flatten_cons, ← List.append_assoc,
      splitOnChar_append d (cache ++ chunk) rest.flatten, ← hstep,
      List.dropLast_concat, getLastD_append_singleton, ← hrest]
    by_cases hE : (feed d cache chunk).1.isEmpty = true
    · have hF1 : (feed d cache chunk).1 = [] := List.isEmpty_iff.mp hE
      simp [if_pos hE, hF1]
    · have hF : (feed d cache chunk).1 ≠ [] := fun h => hE (List.isEmpty_iff.mpr h)
      rw [if_neg hE]
      rw [List.flatten_cons, List.append_assoc]

/-- A run from the freshly-initialized empty carry-over accounts for every
byte of the stream. -/
theorem run_spec (d : Char) (chunks : List (List Char)) :
    (fetech_from_stream d [] chunks).1.flatten ++ [(fetech_from_stream d [] chunks).2]
      = splitOnChar d chunks.flatten := by
  have h := fetech_spec d chunks [] (by simp)
  simpa using h

theorem run_records_length (d : Char) (chunks : List (List Char)) :
    ((fetech_from_stream d [] chunks).1.flatten).length = chunks.flatten.count d := by
  have h := congrArg List.length (run_spec d chunks)
  simp only [List.length_append, List.length_singleton, length_splitOnChar] at h
  omega

theorem run_cache_not_mem (d : Char) (chunks : List (List Char)) :
    d ∉ (fetech_from_stream d [] chunks).2 := by
  have h := run_spec d chunks
  exact splitOnChar_piece_not_mem d chunks.flatten _
    (h ▸ List.mem_append_right _ (List.mem_singleton_self _))

theorem run_records_join (d : Char) (chunks : List (List Char)) :
    (((fetech_from_stream d [] chunks).1.flatten).map (fun r => r ++ [d])).flatten
      ++ (fetech_from_stream d [] chunks).2 = chunks.flatten := by
  have hj := join_splitOnChar d chunks.flatten
  rw [← run_spec d chunks, List.dropLast_concat, getLastD_append_singleton] at hj
  exact hj

/-- Kinds of Python exception surfaced by the embedded code paths:
`typeError` is Python's built-in TypeError (bad call arguments),
`icinga2ApiException` is the library's `Icinga2ApiException` (client.py
line 27), and `configurationError` stands for a client-side invalid-
argument error, which the spec postulates but the source never raises. -/
inductive PyError where
  | typeError
  | icinga2ApiException
  | configurationError
  deriving DecidableEq

/-- Minimal JSON value tree, the shape of a parsed JSON document. -/
inductive Json where
  | null
  | bool (b : Bool)
  | num (n : Int)
  | str (s : List Char)
  | arr (elems : List Json)
  | obj (fields : List (List Char × Json))

/-- A Python value observable from the subscribe generator: either a raw
`str` (one delimiter-stripped record, as the source yields it) or a
structured value obtained by JSON-parsing a record (which the spec
describes but the source never constructs). -/
inductive PyVal where
  | str (s : List Char)
  | json (j : Json)

/-- Parameter names of `Base._request` after `self`
(client.py line 265: `def _request(self, method, url_path, payload=None)`). -/
def request_params : List String := ["method", "url_path", "payload"]

/-- Python call binding for a call with `nPos` positional arguments and the
keyword-argument names `kwargs`: the call is accepted only if the
positional arguments fit and every keyword names a parameter not already
bound positionally; otherwise Python raises TypeError. -/
def acceptsCall (params : List String) (nPos : Nat) (kwargs : List String) : Bool :=
  decide (nPos ≤ params.length) && kwargs.all (fun k => (params.drop nPos).contains k)

/-- The JSON payload built by `Events.subscribe` (client.py lines
1017-1022): always the `types` and `queue` entries, plus `filters` exactly
when the `filters` argument is truthy (`if filters:` — absent or empty
means omitted). -/
structure SubscribePayload where
  types : List String
  queue : String
  filters : Option String
  deriving DecidableEq

def build_payload (types : List String) (queue : String)
    (filters : Option String) : SubscribePayload :=
  { types := types
    queue := queue
    filters := match filters with
      | none => none
      | some f => if f.isEmpty then none else some f }

/-- The record-consuming loop of `Events.subscribe` (client.py lines
1024-1026): `for events in self.fetech_from_stream(stream): for event in
events: yield event` — each record of each yielded batch is handed to the
caller unchanged (as the raw `str`), in order.  The delimiter is the
source default `'\n'`. -/
def subscribe_loop (chunks : List (List Char)) : List PyVal :=
  ((fetech_from_stream '\n' [] chunks).1.map (fun events => events.map PyVal.str)).flatten

/-- `Events.subscribe` (client.py lines 979-1026), forced to completion:
builds the payload, then evaluates
`self._request('POST', self.base_url_path, payload, stream=True)` — three
positional arguments against `request_params` plus the keyword `stream`.
If Python accepted that call the generator would go on to run the record
loop over the response stream; the pair returned is (events yielded,
terminal error if any). -/
def subscribe (types : List String) (queue : String) (filters : Option String)
    (chunks : List (List Char)) : List PyVal × Option PyError :=
  let _payload := build_payload types queue filters
  if acceptsCall request_params 3 ["stream"] then (subscribe_loop chunks, none)
  else ([], some PyError.typeError)

/-- An HTTP response as `Base._request` observes it: the integer status
code and the value that `response.json()` decodes from the body. -/
structure HttpResponse where
  status_code : Nat
  body : Json

/-- The response handling at the end of `Base._request` (client.py lines
305-311): one `session.post` is made (no retry loop exists in the
source); then `if not 200 <= response.status_code <= 299: raise
Icinga2ApiException(...)` and otherwise `return response.json()`. -/
def request_result (resp : HttpResponse) : Except PyError Json :=
  if ¬(200 ≤ resp.status_code ∧ resp.status_code ≤ 299) then
    Except.error PyError.icinga2ApiException
  else Except.ok resp.body

/-- Claim C1: for every arguments (types, queue, filters), forcing the
generator returned by `Events.subscribe` raises TypeError before any
record is produced — `subscribe` passes the keyword argument
`stream=True`, which `_request`'s signature (method, url_path, payload)
does not accept — so no event is ever yielded, whatever the stream would
have carried. -/
theorem subscribe_always_typeerror (types : List String) (queue : String)
    (filters : Option String) (chunks : List (List Char)) :
    subscribe types queue filters chunks = ([], some PyError.typeError) := rfl

/-- Claim C2 counterexample: feeding the single chunk "1\n" (one complete
record whose text "1" is itself a valid JSON document), the record loop of
`Events.subscribe` yields the raw record text as a Python str — not a
JSON-parsed structured value: the one yielded element is `PyVal.str ['1']`
and differs from `PyVal.json j` for every `j`. -/
theorem subscribe_loop_yields_raw_text :
    subscribe_loop [['1', '\n']] = [PyVal.str ['1']]
    ∧ ∀ j : Json, PyVal.str ['1'] ≠ PyVal.json j := by
  refine ⟨rfl, ?_⟩
  intro j h
  exact PyVal.noConfusion h

/-- Claim C2 amended: every element the record loop of `Events.subscribe`
yields is the raw record text wrapped as a Python str — the reassembler's
records in order, unparsed; no JSON parsing is applied to any record (and
independently, by C1, the loop is never reached on a real call). -/
theorem subscribe_loop_unparsed (chunks : List (List Char)) :
    subscribe_loop chunks
      = ((fetech_from_stream '\n' [] chunks).1.flatten).map PyVal.str := by
  unfold subscribe_loop
  exact (List.map_flatten _ _).symm

/-- Claim C3: for every delimiter `d` and every partition `chunks` of the
byte sequence `s = chunks.flatten`, feeding the chunks in order to a
freshly constructed reassembler yields exactly `s.count d` complete
records, and concatenating the yielded records with the delimiter
reinserted after each one, followed by the delimiter-free final
carry-over, reconstructs `s` — that concatenation is exactly the prefix
of `s` up to and including the last delimiter. -/
theorem no_data_loss (d : Char) (chunks : List (List Char)) :
    ((fetech_from_stream d [] chunks).1.flatten).length = chunks.flatten.count d
    ∧ (((fetech_from_stream d [] chunks).1.flatten).map (fun r => r ++ [d])).flatten
        ++ (fetech_from_stream d [] chunks).2 = chunks.flatten
    ∧ d ∉ (fetech_from_stream d [] chunks).2 :=
  ⟨run_records_length d chunks, run_records_join d chunks, run_cache_not_mem d chunks⟩

/-- Claim C4: for every carry-over state and fed chunk, if splitting the
accumulated buffer on the delimiter yields N ≥ 2 pieces, the feed step
emits exactly the first N−1 pieces as records, in their original order and
delimiter-stripped, and the last piece — possibly empty — becomes the new
carry-over buffer. -/
theorem feed_emits_split_front (d : Char) (cache chunk : List Char)
    (h : 2 ≤ (splitOnChar d (cache ++ chunk)).length) :
    feed d cache chunk = ((splitOnChar d (cache ++ chunk)).dropLast,
      (splitOnChar d (cache ++ chunk)).getLastD []) := by
  unfold feed
  rw [if_pos h]

theorem feed_emits_split_front_witness :
    2 ≤ (splitOnChar '\n' ([] ++ ['a', '\n', 'b'])).length
    ∧ feed '\n' [] ['a', '\n', 'b']
        = ((splitOnChar '\n' ([] ++ ['a', '\n', 'b'])).dropLast,
           (splitOnChar '\n' ([] ++ ['a', '\n', 'b'])).getLastD []) :=
  ⟨by decide, feed_emits_split_front '\n' [] ['a', '\n', 'b'] (by decide)⟩

/-- Claim C5 counterexample: from the freshly constructed state (empty
carry-over, reachable after zero feeds), feeding the chunk "a\n" — so the
accumulated buffer contains exactly one delimiter occurrence and ends on
it — emits the record "a" at once, not zero records. -/
theorem one_delimiter_already_emits :
    (([] : List Char) ++ ['a', '\n']).count '\n' = 1
    ∧ (feed '\n' [] ['a', '\n']).1 = [['a']]
    ∧ (feed '\n' [] ['a', '\n']).1 ≠ [] := by
  refine ⟨by decide, by decide, by decide⟩

/-- Claim C5 amended: a feed step whose accumulated buffer contains zero
delimiter occurrences produces zero records, but a buffer with exactly one
occurrence splits into two pieces and therefore emits exactly one record
immediately — a chunk ending on the only delimiter does not wait for a
following feed call. -/
theorem feed_few_delims (d : Char) (cache chunk : List Char) :
    ((cache ++ chunk).count d = 0 → (feed d cache chunk).1 = [])
    ∧ ((cache ++ chunk).count d = 1 → (feed d cache chunk).1.length = 1) := by
  constructor
  · intro h
    exact (feed_no_delim d cache chunk h).1
  · intro h
    have hlen : (splitOnChar d (cache ++ chunk)).length = 2 := by
      rw [length_splitOnChar, h]
    unfold feed
    rw [if_pos (by omega)]
    simp [List.length_dropLast, hlen]

theorem feed_few_delims_witness :
    (((['x'] : List Char) ++ ['y']).count '\n' = 0 ∧ (feed '\n' ['x'] ['y']).1 = [])
    ∧ ((([] : List Char) ++ ['a', '\n']).count '\n' = 1
        ∧ (feed '\n' [] ['a', '\n']).1.length = 1) :=
  ⟨⟨by decide, (feed_few_delims '\n' ['x'] ['y']).1 (by decide)⟩,
   ⟨by decide, (feed_few_delims '\n' [] ['a', '\n']).2 (by decide)⟩⟩

/-- Claim C6: when the chunk source is exhausted the generator simply
stops: over a whole run the records yielded are exactly one per delimiter
occurrence, so a residual non-empty carry-over (the bytes after the last
delimiter) never contributes a record; concretely, feeding "a\nb" and then
ending the stream yields only the record "a", while the dangling tail "b"
remains in the discarded carry-over. -/
theorem eos_discards_residual :
    (∀ (d : Char) (chunks : List (List Char)),
      ((fetech_from_stream d [] chunks).1.flatten).length = chunks.flatten.count d)
    ∧ fetech_from_stream '\n' [] [['a', '\n', 'b']] = ([[['a']]], ['b']) :=
  ⟨run_records_length, by decide⟩

/-- Claim C7 counterexample: calling subscribe with an empty types list
surfaces no configuration error — the source has no validation; the run
fails with the TypeError every call hits, and TypeError is not a
configuration error. -/
theorem empty_types_not_validated :
    subscribe [] "q" none [] = ([], some PyError.typeError)
    ∧ PyError.typeError ≠ PyError.configurationError :=
  ⟨rfl, by decide⟩

/-- Claim C7 amended: `Events.subscribe` performs no validation of `types`
at all: the observable outcome is identical for every value of `types`
(empty or not), and no configuration error is ever surfaced — every
forced run ends in the TypeError from the `stream=` keyword instead. -/
theorem subscribe_ignores_types (types other : List String) (queue : String)
    (filters : Option String) (chunks : List (List Char)) :
    subscribe types queue filters chunks = subscribe other queue filters chunks
    ∧ (subscribe types queue filters chunks).2 ≠ some PyError.configurationError := by
  refine ⟨rfl, ?_⟩
  intro h
  have hx : (subscribe types queue filters chunks).2 = some PyError.typeError := rfl
  rw [hx] at h
  exact PyError.noConfusion (Option.some.inj h)

/-- Claim C8 counterexample: `stream_cache` is an instance field reset only
in `Base.__init__`, so a second subscription run on the same client object
starts from the previous run's residue. Run 1 feeds "a\nb" and leaves
residue "b"; run 2 on the same object feeds only "c\n" yet its first
record is "bc" — bytes left over from the earlier run appear in the later
run's records (a per-run buffer would make run 2 yield "c"). -/
theorem second_run_sees_leftover :
    fetech_from_stream '\n'
        (fetech_from_stream '\n' init_stream_cache [['a', '\n', 'b']]).2
        [['c', '\n']]
      = ([[['b', 'c']]], [])
    ∧ ([[['b', 'c']]] : List (List (List Char))) ≠ [[['c']]] :=
  ⟨by decide, by decide⟩

/-- Claim C8 amended: the carry-over buffer starts empty when the client
object is constructed (`Base.__init__`), not per subscription run; it is
mutated only by the chunk-processing step and persists across runs on the
same object, so a run started from a previous run's residue "b" prepends
those bytes to its first record. -/
theorem buffer_reset_on_construction :
    init_stream_cache = []
    ∧ fetech_from_stream '\n' init_stream_cache [['a', '\n', 'b']] = ([[['a']]], ['b'])
    ∧ fetech_from_stream '\n' ['b'] [['c', '\n']] = ([[['b', 'c']]], []) :=
  ⟨rfl, by decide, by decide⟩

/-- Claim C9: after any run from the freshly constructed client (any
reachable state), the carry-over buffer never contains the delimiter, and
feeding a chunk containing zero delimiter occurrences from such a state
yields no record. -/
theorem no_premature_emission (d : Char) (past : List (List Char))
    (chunk : List Char) (h : d ∉ chunk) :
    d ∉ (fetech_from_stream d [] past).2
    ∧ (feed d (fetech_from_stream d [] past).2 chunk).1 = [] := by
  refine ⟨run_cache_not_mem d past, ?_⟩
  have hcnt : ((fetech_from_stream d [] past).2 ++ chunk).count d = 0 := by
    rw [List.count_eq_zero]
    intro hm
    rcases List.mem_append.mp hm with hm | hm
    · exact run_cache_not_mem d past hm
    · exact h hm
  exact (feed_no_delim d _ chunk hcnt).1

theorem no_premature_emission_witness :
    ('\n' ∉ (['a'] : List Char))
    ∧ ('\n' ∉ (fetech_from_stream '\n' [] [['x', '\n']]).2
       ∧ (feed '\n' (fetech_from_stream '\n' [] [['x', '\n']]).2 ['a']).1 = []) :=
  ⟨by decide, no_premature_emission '\n' [['x', '\n']] ['a'] (by decide)⟩

/-- Claim C10: `Base._request` raises Icinga2ApiException exactly when the
response status code lies outside 200..299, and for a status in that range
it returns the JSON-decoded response body; the source performs a single
`session.post` with no retry logic, so a non-2xx response is always
surfaced to the caller as this error. -/
theorem request_raises_iff_non_2xx (resp : HttpResponse) :
    ((∃ e, request_result resp = Except.error e)
        ↔ ¬(200 ≤ resp.status_code ∧ resp.status_code ≤ 299))
    ∧ (request_result resp = Except.ok resp.body
        ↔ (200 ≤ resp.status_code ∧ resp.status_code ≤ 299)) := by
  unfold request_result
  by_cases h : 200 ≤ resp.status_code ∧ resp.status_code ≤ 299
  · rw [if_neg (not_not_intro h)]
    constructor
    · constructor
      · rintro ⟨e, he⟩
        exact Except.noConfusion he
      · intro hn
        exact absurd h hn
    · exact ⟨fun _ => h, fun _ => rfl⟩
  · rw [if_pos h]
    constructor
    · exact ⟨fun _ => h, fun _ => ⟨PyError.icinga2ApiException, rfl⟩⟩
    · constructor
      · intro he
        exact Except.noConfusion he
      · intro hr
        exact absurd hr h

end Icinga2
